import Mathlib

/-!
# A verification development for `grep.cpp`

The file embeds the three functions of `src/grep.cpp` in Lean:

* `search_in_file` (lines 19-57): the per-file line scanner;
* `search_dir` (lines 59-154): the worker loop, as a step function on a shared
  state (`visited`, `directories`) and one control state per worker thread;
* `main` (lines 157-244): option parsing, the option check and the seeding of
  the frontier.

Conventions of the embedding.

* `std::regex_search` on a case-insensitive `std::regex` built from the pattern
  is a parameter `regex_search : String → String → Bool` (line, pattern); the
  pattern is taken to compile.
* A file is the list of lines `std::getline` yields from it, or `none` when the
  `std::ifstream` fails to open.
* The `int` counter `line_number` is a natural number: files are taken to have
  fewer than `2 ^ 31` lines. Depths are integers; `depth + 1` is only computed
  for `depth < max_depth`, so it never overflows.
* The filesystem does not change during a run. Opening a directory and
  `std::filesystem::canonical` return `none` when they throw `filesystem_error`.
* Threads interleave at the granularity of one access to the shared state: the
  pop under the mutex (lines 72-85) and the push under the mutex (lines 105-107)
  are one action each. `visited.insert` at line 102 runs outside both locks, so
  it is two actions, the lookup that decides `inserted` and the insertion, and
  another thread may act between them. The lines written for one entry are
  appended to the trace in one block; the order of the characters of concurrent
  writers is not part of the model.
-/

namespace Grep

/-! ## `search_in_file` -/

/-- One line written to `std::cout` by `search_in_file`: `text` is what is
written before the `std::endl`, `line_number` is the value of the variable
`line_number` at that moment. -/
structure Emitted where
  line_number : Nat
  text : String
deriving DecidableEq, Repr

/-- What `search_in_file` leaves behind: the returned `flag`, the lines written
to `std::cout`, the final value of `line_number` (the number of successful
`std::getline` calls) and the lines of the stream that were never read. -/
structure ScanResult where
  ret : Bool
  out : List Emitted
  line_number : Nat
  unread : List String
deriving DecidableEq, Repr

/-- Lines 47-53: the line is written when it matches and `-v` is off, or does
not match and `-v` is on; with `-n` it is prefixed by `Line <line_number>: `. -/
def emit (invert_match line_n : Bool) (line_number : Nat) (line : String)
    (is_match : Bool) (out : List Emitted) : List Emitted :=
  if (is_match && !invert_match) || (!is_match && invert_match) then
    out ++ [⟨line_number,
      (if line_n then "Line " ++ toString line_number ++ ": " else "") ++ line⟩]
  else out

/-- The `while (std::getline(file, line))` loop of lines 33-54, started with the
unread lines of the stream and the current values of `line_number`, `flag` and
the output. -/
def scan_lines (regex_search : String → String → Bool) (pattern : String)
    (invert_match line_n files_without_match : Bool) :
    List String → Nat → Bool → List Emitted → ScanResult
  | [], line_number, flag, out => ⟨flag, out, line_number, []⟩
  | line :: rest, line_number, flag, out =>
    let line_number := line_number + 1
    let is_match := regex_search line pattern
    if !flag && is_match then
      if files_without_match then
        ⟨true, out, line_number, rest⟩
      else
        scan_lines regex_search pattern invert_match line_n files_without_match rest
          line_number true (emit invert_match line_n line_number line is_match out)
    else
      scan_lines regex_search pattern invert_match line_n files_without_match rest
        line_number flag (emit invert_match line_n line_number line is_match out)

/-- The function `search_in_file` of lines 19-57. `file` is the content behind
`path`: `none` when the stream fails to open, in which case the first
`std::getline` fails and `flag` is returned unchanged. -/
def search_in_file (regex_search : String → String → Bool)
    (file : Option (List String)) (pattern : String)
    (invert_match line_n files_without_match : Bool) : ScanResult :=
  match file with
  | none => ⟨false, [], 0, []⟩
  | some lines =>
    scan_lines regex_search pattern invert_match line_n files_without_match lines 0 false []

/-- The lines of a file as the scanner sees them: none when it cannot be
opened. -/
def lines_of (file : Option (List String)) : List String :=
  match file with
  | none => []
  | some lines => lines

/-- The line written for line `i` with text `line`. -/
def rendered (line_n : Bool) (i : Nat) (line : String) : Emitted :=
  ⟨i, (if line_n then "Line " ++ toString i ++ ": " else "") ++ line⟩

/-- The lines selected by a direct re-scan: line `i` is selected when
"it matches" differs from `invert_match`. -/
def selected (regex_search : String → String → Bool) (pattern : String)
    (invert_match line_n : Bool) (start : Nat) (lines : List String) : List Emitted :=
  ((lines.enumFrom start).filter
      (fun il => regex_search il.2 pattern != invert_match)).map
    (fun il => rendered line_n il.1 il.2)

/-! ## `search_dir` -/

/-- What `search_dir` asks the filesystem about one `directory_entry`:
`entry.path()`, `entry.path().filename()`, `entry.is_directory()`,
`std::filesystem::canonical(entry.path())` (`none` when it throws
`filesystem_error`) and the lines behind `std::ifstream(entry.path())`
(`none` when the open fails). -/
structure Entry where
  path : String
  filename : String
  is_directory : Bool
  canonical : Option String
  content : Option (List String)
deriving DecidableEq, Repr

/-- The listing `std::filesystem::directory_iterator(path)` yields for a path:
`none` when it throws `filesystem_error`. -/
abbrev FileSystem := String → Option (List Entry)

/-- The parameters of `search_dir` (line 59). -/
structure Config where
  search_for_files : Bool
  file_names : List String
  pattern : String
  invert_match : Bool
  line_number : Bool
  files_without_match : Bool
  max_depth : Int
deriving DecidableEq, Repr

/-- What `operator<<` writes for a `std::filesystem::path`: the string between
double quotes, with a backslash before every double quote and backslash. -/
def quoted (s : String) : String :=
  "\"" ++ String.join (s.toList.map fun c =>
    if c = '"' ∨ c = '\\' then "\\" ++ c.toString else c.toString) ++ "\""

/-- The report line of lines 118, 126 and 133: the highlighted name, a colon
and the path of the entry. -/
def name_report (shown path : String) : String :=
  "\x1b[1;31m" ++ shown ++ "\x1b[0m: " ++ quoted path

/-- The line of line 142: the highlighted target file name alone. -/
def plain_report (file_name : String) : String :=
  "\x1b[1;31m" ++ file_name ++ "\x1b[0m"

/-- Lines 113-119 and 123-126: in name-search mode the base name is tested
against the pattern and reported on a match. -/
def match_name (regex_search : String → String → Bool) (c : Config) (e : Entry) :
    List String :=
  if regex_search e.filename c.pattern then [name_report e.filename e.path] else []

/-- The `for` loop of lines 128-146 over the remaining target file names: at the
first name equal to the base name of the entry the header is written (unless
`-L`), the file is scanned, the name is written when `-L` is on and the scan
found no match, and the loop is left. -/
def search_names (regex_search : String → String → Bool) (c : Config) (e : Entry) :
    List String → List String
  | [] => []
  | file_name :: rest =>
    if e.filename = file_name then
      let f := search_in_file regex_search e.content c.pattern c.invert_match
        c.line_number c.files_without_match
      (if !c.files_without_match then [name_report (quoted e.filename) e.path] else [])
        ++ f.out.map Emitted.text
        ++ (if c.files_without_match && !f.ret then [plain_report file_name] else [])
    else search_names regex_search c e rest

/-- Everything written to `std::cout` for an entry that is not a directory
(lines 121-148). -/
def file_output (regex_search : String → String → Bool) (c : Config) (e : Entry) :
    List String :=
  if c.search_for_files then match_name regex_search c e
  else search_names regex_search c e c.file_names

/-- Everything written to `std::cout` for an entry that is a directory
(lines 111-119). -/
def dir_output (regex_search : String → String → Bool) (c : Config) (e : Entry) :
    List String :=
  if c.search_for_files then match_name regex_search c e else []

/-- The observable actions of a run, in the order they happen. `push` and `pop`
are the operations on the queue `directories` (the seed of `main` included),
`expand` is a `directory_iterator` successfully opened on the path of a work
item of the given depth, `print` is one line written to `std::cout` for an entry
of the given depth (the depth of the listed work item plus 1). -/
inductive Event where
  | push (path : String) (depth : Int)
  | pop (path : String) (depth : Int)
  | expand (path : String) (depth : Int)
  | print (depth : Int) (line : String)
deriving DecidableEq, Repr

/-- Where a thread running `search_dir` stands.
* `idle`: at the head of `while(true)`, about to take the lock of line 72;
* `listing depth entries`: inside the `for` of line 96 over a directory of the
  given depth, `entries` being the entries not yet visited;
* `inserting depth abs_path entry entries`: inside `visited.insert` of line 102,
  the lookup has found `abs_path` absent, the insertion is not yet done;
* `pushing depth abs_path entry entries`: `visited.insert` of line 102 returned
  `inserted == true` for `abs_path`, the lock of line 105 is not yet taken;
* `returned`: left by line 76 or line 93. -/
inductive Worker where
  | idle
  | listing (depth : Int) (entries : List Entry)
  | inserting (depth : Int) (abs_path : String) (entry : Entry) (entries : List Entry)
  | pushing (depth : Int) (abs_path : String) (entry : Entry) (entries : List Entry)
  | returned
deriving DecidableEq, Repr

/-- The shared state: the globals `visited` and `directories` of lines 13-14,
the control state of every thread, and the trace of what happened so far. -/
structure State where
  visited : List String
  directories : List (String × Int)
  workers : List Worker
  trace : List Event
deriving DecidableEq, Repr

/-- The `print` events of the lines written for an entry found while listing a
directory of depth `depth`. -/
def prints (depth : Int) (lines : List String) : List Event :=
  lines.map (Event.print (depth + 1))

/-- One atomic action of thread `i` of `search_dir`; a thread that has returned
(or does not exist) leaves the state unchanged.
* `idle`: lines 69-96. Under the lock the queue is tested and its front popped;
  then the depth is tested (line 92) and the directory opened (line 96), a
  `filesystem_error` being caught at line 150, after which the loop goes on.
* `listing`, no entry left: back to the head of the loop.
* `listing`, at a directory: `canonical` and the lookup of `visited.insert`
  (lines 100-102). When the path is already there, `inserted` is false and the
  name report of lines 113-119 follows.
* `inserting`: the insertion of `visited.insert`, which returns
  `inserted == true`. No lock is held (the mutex is taken at line 105 only), so
  other threads may have acted since the lookup.
* `pushing`: the push under the lock (lines 105-107), then the name report.
* `listing`, at another entry: lines 123-147. -/
def step (regex_search : String → String → Bool) (c : Config) (fs : FileSystem)
    (s : State) (i : Nat) : State :=
  match s.workers.get? i with
  | none => s
  | some Worker.returned => s
  | some Worker.idle =>
    match s.directories with
    | [] => { s with workers := s.workers.set i Worker.returned }
    | (path, depth) :: rest =>
      if depth ≥ c.max_depth then
        { s with directories := rest
                 workers := s.workers.set i Worker.returned
                 trace := s.trace ++ [Event.pop path depth] }
      else
        match fs path with
        | none =>
          { s with directories := rest
                   trace := s.trace ++ [Event.pop path depth] }
        | some entries =>
          { s with directories := rest
                   workers := s.workers.set i (Worker.listing depth entries)
                   trace := s.trace ++ [Event.pop path depth, Event.expand path depth] }
  | some (Worker.listing _ []) =>
    { s with workers := s.workers.set i Worker.idle }
  | some (Worker.listing depth (entry :: entries)) =>
    if entry.is_directory then
      match entry.canonical with
      | none => { s with workers := s.workers.set i Worker.idle }
      | some abs_path =>
        if abs_path ∈ s.visited then
          { s with workers := s.workers.set i (Worker.listing depth entries)
                   trace := s.trace ++ prints depth (dir_output regex_search c entry) }
        else
          { s with workers := s.workers.set i
                     (Worker.inserting depth abs_path entry entries) }
    else
      { s with workers := s.workers.set i (Worker.listing depth entries)
               trace := s.trace ++ prints depth (file_output regex_search c entry) }
  | some (Worker.inserting depth abs_path entry entries) =>
    { s with visited := abs_path :: s.visited
             workers := s.workers.set i (Worker.pushing depth abs_path entry entries) }
  | some (Worker.pushing depth abs_path entry entries) =>
    { s with directories := s.directories ++ [(abs_path, depth + 1)]
             workers := s.workers.set i (Worker.listing depth entries)
             trace := s.trace ++ Event.push abs_path (depth + 1) ::
               prints depth (dir_output regex_search c entry) }

/-- A run under a schedule: the list of the threads that act, in order. -/
def run (regex_search : String → String → Bool) (c : Config) (fs : FileSystem)
    (s : State) : List Nat → State
  | [] => s
  | i :: schedule => run regex_search c fs (step regex_search c fs s i) schedule

/-! ## `main` -/

/-- The root directory of the search (line 160). -/
def root : String := "/"

/-- The locals of `main` that the argument loop sets (lines 162-172). -/
structure Options where
  max_depth : Int
  num_threads : Int
  pattern : String
  file_names : List String
  invert_match : Bool
  line_number : Bool
  files_without_match : Bool
  search_for_files : Bool
deriving DecidableEq, Repr

/-- The defaults of lines 162-172; `hardware_concurrency` is the value of
`std::thread::hardware_concurrency()`. -/
def defaults (hardware_concurrency : Nat) : Options :=
  { max_depth := 4, num_threads := hardware_concurrency, pattern := "", file_names := [],
    invert_match := false, line_number := false, files_without_match := false,
    search_for_files := false }

/-- One turn of the loop of lines 186-207. `stoi` is `std::stoi`, `none` when it
throws; the exception is not caught, so `none` ends `main`. -/
def parse_arg (stoi : String → Option Int) (o : Options) (arg : String) : Option Options :=
  if arg = "-v" then some { o with invert_match := true }
  else if arg = "-n" then some { o with line_number := true }
  else if arg = "-L" then some { o with files_without_match := true }
  else if arg = "-f" then some { o with search_for_files := true }
  else if arg.take 3 = "-d=" then
    (stoi (arg.drop 3)).map fun d => { o with max_depth := d }
  else if arg.take 4 = "-th=" then
    (stoi (arg.drop 4)).map fun n => { o with num_threads := n }
  else if o.pattern = "" then some { o with pattern := arg }
  else some { o with file_names := o.file_names ++ [arg] }

/-- The loop of lines 186-207 over `argv[1]`, `argv[2]`, ... -/
def parse_args (stoi : String → Option Int) : List String → Options → Option Options
  | [], o => some o
  | arg :: rest, o =>
    match parse_arg stoi o arg with
    | none => none
    | some o => parse_args stoi rest o

/-- The parameters handed to every `search_dir` thread at line 235. -/
def Options.config (o : Options) : Config :=
  { search_for_files := o.search_for_files, file_names := o.file_names,
    pattern := o.pattern, invert_match := o.invert_match, line_number := o.line_number,
    files_without_match := o.files_without_match, max_depth := o.max_depth }

/-- The state after lines 225-236: `(root, 0)` pushed, `root` in `visited`, and
`num_threads` threads at the head of `search_dir`; with `num_threads = 0` it is
the state after lines 225-228 alone. -/
def seeded (num_threads : Nat) : State :=
  { visited := [root], directories := [(root, 0)],
    workers := List.replicate num_threads Worker.idle,
    trace := [Event.push root 0] }

/-- How `main` goes on after the argument loop.
* `stoi_throws`: `std::stoi` threw inside the loop;
* `exit_1`: line 214 or 221, `undefined command line` on `std::cerr` and
  `return 1`, nothing pushed and no thread created;
* `length_error o s`: lines 225-228 seed the frontier (state `s`, no thread),
  then `std::vector<std::thread> threads(num_threads)` at line 231 throws
  `std::length_error`, `num_threads` being negative and converted to a size
  beyond `max_size()`; the exception is not caught, the program aborts and no
  thread is ever created;
* `traversal o s`: lines 225-241 with the parsed options, `s` being the seeded
  state the `num_threads` threads start from. -/
inductive MainResult where
  | stoi_throws
  | exit_1
  | length_error (o : Options) (s : State)
  | traversal (o : Options) (s : State)
deriving DecidableEq, Repr

/-- The function `main` (lines 157-244) on the arguments `argv[1..]`. -/
def main (stoi : String → Option Int) (hardware_concurrency : Nat) (args : List String) :
    MainResult :=
  match parse_args stoi args (defaults hardware_concurrency) with
  | none => MainResult.stoi_throws
  | some o =>
    if o.search_for_files && (o.invert_match || o.line_number || o.files_without_match) then
      MainResult.exit_1
    else if o.files_without_match &&
        (o.invert_match || o.line_number || o.search_for_files) then
      MainResult.exit_1
    else if o.num_threads < 0 then
      MainResult.length_error o (seeded 0)
    else
      MainResult.traversal o (seeded o.num_threads.toNat)

/-- The run of a whole program: the threads of `main` under a schedule. -/
def execute (regex_search : String → String → Bool) (c : Config) (fs : FileSystem)
    (num_threads : Nat) (schedule : List Nat) : State :=
  run regex_search c fs (seeded num_threads) schedule

/-! ## Observations on a trace -/

/-- The work items pushed, in order. -/
def pushes : List Event → List (String × Int)
  | [] => []
  | Event.push p d :: t => (p, d) :: pushes t
  | _ :: t => pushes t

/-- The work items popped, in order. -/
def pops : List Event → List (String × Int)
  | [] => []
  | Event.pop p d :: t => (p, d) :: pops t
  | _ :: t => pops t

/-- The work items whose directory was opened for listing, in order. -/
def expands : List Event → List (String × Int)
  | [] => []
  | Event.expand p d :: t => (p, d) :: expands t
  | _ :: t => expands t

/-- The canonical path a thread has inserted into `visited` and not yet
pushed. -/
def Worker.pending : Worker → List String
  | Worker.pushing _ abs_path _ _ => [abs_path]
  | _ => []

/-- The depth of the directory a thread is listing. -/
def Worker.expanding : Worker → Option Int
  | Worker.listing depth _ => some depth
  | Worker.inserting depth _ _ _ => some depth
  | Worker.pushing depth _ _ _ => some depth
  | _ => none

/-- Every thread has returned. -/
def State.terminated (s : State) : Bool :=
  s.workers.all fun w => w == Worker.returned

/-- The bound an event respects: an opened directory has depth below
`max_depth`, a pushed work item and a reported entry have depth at most
`max_depth`. -/
def Event.bounded (c : Config) : Event → Prop
  | Event.push _ d => d ≤ c.max_depth
  | Event.pop _ _ => True
  | Event.expand _ d => d < c.max_depth
  | Event.print d _ => d ≤ c.max_depth

/-- The invariant of depth boundedness: a thread inside a listing lists a
directory of depth below `max_depth`, and every event after the seed respects
its bound. -/
abbrev DepthInv (c : Config) (s : State) : Prop :=
  (∀ w ∈ s.workers, ∀ d, w.expanding = some d → d < c.max_depth) ∧
    ∃ t, s.trace = Event.push root 0 :: t ∧ ∀ ev ∈ t, ev.bounded c

/-- The invariant of single insertion in a run with one thread: a canonical path
is pushed, or held by the thread about to push it, at most once, and only when
it is in `visited`; between the lookup and the insertion of `visited.insert` the
path is still absent. -/
abbrev UniqueInv (s : State) : Prop :=
  ∃ w, s.workers = [w] ∧
    (∀ p, List.count p ((pushes s.trace).map Prod.fst) + List.count p w.pending ≤
      if p ∈ s.visited then 1 else 0) ∧
    (∀ d p e es, w = Worker.inserting d p e es → p ∉ s.visited)

/-- The invariant of the queue: the work items pushed so far are the ones popped
so far followed by the ones still in `directories`; the directories opened are
the popped work items of depth below `max_depth`. -/
abbrev QueueInv (c : Config) (s : State) : Prop :=
  pushes s.trace = pops s.trace ++ s.directories ∧
    expands s.trace = (pops s.trace).filter (fun x => decide (x.2 < c.max_depth))

/-- The invariant of a run with one thread: the depths in `directories` do not
decrease from front to back and differ by at most 1; while a directory of depth
`d` is listed they lie between `d` and `d + 1`; once the thread has returned
they are at least `max_depth`. -/
abbrev BfsInv (c : Config) (s : State) : Prop :=
  ∃ w, s.workers = [w] ∧
    List.Pairwise (fun a b : String × Int => a.2 ≤ b.2) s.directories ∧
    (∀ x ∈ s.directories, ∀ y ∈ s.directories, y.2 ≤ x.2 + 1) ∧
    (∀ d, w.expanding = some d → ∀ x ∈ s.directories, d ≤ x.2 ∧ x.2 ≤ d + 1) ∧
    (w = Worker.returned → ∀ x ∈ s.directories, c.max_depth ≤ x.2)

/-! ## A bound on the steps of one thread -/

/-- The steps an entry can cost: one when it is not a directory or `canonical`
throws, and otherwise the lookup, the insertion, the push and the work item
pushed. -/
def entry_weight (item : String → Nat) (e : Entry) : Nat :=
  if e.is_directory then
    match e.canonical with
    | none => 1
    | some abs_path => 3 + item abs_path
  else 1

/-- The steps a work item can cost when `budget` levels remain below it. -/
def item_weight (fs : FileSystem) : Nat → String → Nat
  | 0, _ => 1
  | budget + 1, path =>
    match fs path with
    | none => 1
    | some entries => 3 + (entries.map (entry_weight (item_weight fs budget))).sum

/-- The steps the rest of a listing can cost. -/
def listing_weight (fs : FileSystem) (budget : Nat) (entries : List Entry) : Nat :=
  2 + (entries.map (entry_weight (item_weight fs budget))).sum

/-- The steps a thread can still take before it is back at the head of the loop
with its discoveries in the queue. -/
def worker_weight (c : Config) (fs : FileSystem) : Worker → Nat
  | Worker.idle => 1
  | Worker.returned => 0
  | Worker.listing depth entries =>
    listing_weight fs (c.max_depth - (depth + 1)).toNat entries
  | Worker.inserting depth abs_path _ entries =>
    2 + item_weight fs (c.max_depth - (depth + 1)).toNat abs_path +
      listing_weight fs (c.max_depth - (depth + 1)).toNat entries
  | Worker.pushing depth abs_path _ entries =>
    1 + item_weight fs (c.max_depth - (depth + 1)).toNat abs_path +
      listing_weight fs (c.max_depth - (depth + 1)).toNat entries

/-- The measure of a state: the weights of the queued work items and of the
threads. -/
def step_bound (c : Config) (fs : FileSystem) (s : State) : Nat :=
  (s.directories.map fun x => item_weight fs (c.max_depth - x.2).toNat x.1).sum +
    (s.workers.map (worker_weight c fs)).sum

/-! ## Two directory trees -/

/-- A directory entry with the given path, base name and canonical path. -/
def subdir (path filename canonical : String) : Entry :=
  { path := path, filename := filename, is_directory := true,
    canonical := some canonical, content := none }

/-- The tree `/a/d/c` with a symbolic link `/s` to `/a/d`. -/
def shortcut_fs : FileSystem := fun p =>
  if p = "/" then some [subdir "/a" "a" "/a", subdir "/s" "s" "/a/d"]
  else if p = "/a" then some [subdir "/a/d" "d" "/a/d"]
  else if p = "/a/d" then some [subdir "/a/d/c" "c" "/a/d/c"]
  else some []

/-- The tree with `/x/z1`, `/x/z2` and `/y`. -/
def race_fs : FileSystem := fun p =>
  if p = "/" then some [subdir "/x" "x" "/x", subdir "/y" "y" "/y"]
  else if p = "/x" then some [subdir "/x/z1" "z1" "/x/z1", subdir "/x/z2" "z2" "/x/z2"]
  else some []

/-- A schedule of three threads on `race_fs`: thread 0 pops the root; thread 1
finds the queue empty and returns; thread 0 pushes `/x`; thread 2 lists `/x` and
pushes `/x/z1` and `/x/z2`; thread 0 pushes `/y`; threads 2 and 0 then pop
`/x/z1` and `/x/z2` and return. -/
def race_schedule : List Nat :=
  [0, 1, 0, 0, 0, 2, 2, 2, 2, 2, 2, 2, 0, 0, 0, 2, 2, 0, 0]

/-- The tree with the directories `/A` and `/B`, each holding a symbolic link
`l1` to the same directory `/T/t1`. -/
def twice_fs : FileSystem := fun p =>
  if p = "/" then some [subdir "/A" "A" "/A", subdir "/B" "B" "/B"]
  else if p = "/A" then some [subdir "/A/l1" "l1" "/T/t1"]
  else if p = "/B" then some [subdir "/B/l1" "l1" "/T/t1"]
  else some []

/-- A schedule of two threads on `twice_fs`: thread 0 lists the root and pushes
`/A` and `/B`; thread 0 pops `/A` and thread 1 pops `/B`; both look `/T/t1` up in
`visited` before either inserts it; both insert, push, and run until they
return. -/
def twice_schedule : List Nat :=
  [0, 0, 0, 0, 0, 0, 0, 0, 0, 1, 0, 1, 0, 1, 0, 1, 0, 1, 0, 1]

/-- A content search for `foo` in the files named `x.txt`, to the given depth. -/
def content_search (max_depth : Int) : Config :=
  { search_for_files := false, file_names := ["x.txt"], pattern := "foo",
    invert_match := false, line_number := false, files_without_match := false,
    max_depth := max_depth }

/-! ### Lemmas on the scanner -/

section Scanner

variable (regex_search : String → String → Bool) (pattern : String)

theorem emit_eq (invert_match line_n : Bool) (n : Nat) (line : String) (out : List Emitted) :
    emit invert_match line_n n line (regex_search line pattern) out =
      out ++ selected regex_search pattern invert_match line_n n [line] := by
  unfold emit selected rendered
  cases h : regex_search line pattern <;> cases invert_match <;>
    simp [List.enumFrom, h]

theorem selected_cons (invert_match line_n : Bool) (n : Nat) (line : String)
    (rest : List String) :
    selected regex_search pattern invert_match line_n n (line :: rest) =
      selected regex_search pattern invert_match line_n n [line] ++
        selected regex_search pattern invert_match line_n (n + 1) rest := by
  unfold selected
  simp only [List.enumFrom, List.filter_cons]
  split <;> simp

/-- Without `-L` the loop appends to the output exactly the selected lines of
the rest of the stream, and reads the stream to its end. -/
theorem scan_lines_out (invert_match line_n : Bool) (lines : List String) :
    ∀ (n : Nat) (flag : Bool) (out : List Emitted),
      (scan_lines regex_search pattern invert_match line_n false lines n flag out).out =
        out ++ selected regex_search pattern invert_match line_n (n + 1) lines := by
  induction lines with
  | nil => intro n flag out; simp [scan_lines, selected]
  | cons line rest ih =>
    intro n flag out
    rw [selected_cons]
    unfold scan_lines
    simp only [Bool.false_eq_true, if_false]
    split <;> rw [ih, emit_eq, List.append_assoc]

/-- The returned flag: the incoming flag, or some remaining line matches. -/
theorem scan_lines_ret (invert_match line_n files_without_match : Bool)
    (lines : List String) :
    ∀ (n : Nat) (flag : Bool) (out : List Emitted),
      (scan_lines regex_search pattern invert_match line_n files_without_match
          lines n flag out).ret =
        (flag || lines.any (fun l => regex_search l pattern)) := by
  induction lines with
  | nil => intro n flag out; simp [scan_lines]
  | cons line rest ih =>
    intro n flag out
    unfold scan_lines
    cases hm : regex_search line pattern <;> cases flag <;>
      cases files_without_match <;> simp [ih, hm]

/-- With `-L` on and no match so far, the loop stops at the first matching line:
it has written the selected lines before it, read up to it and nothing more. -/
theorem scan_lines_stop (invert_match line_n : Bool) (pre post : List String) (m : String)
    (hpre : ∀ l ∈ pre, regex_search l pattern = false)
    (hm : regex_search m pattern = true) :
    ∀ (n : Nat) (out : List Emitted),
      scan_lines regex_search pattern invert_match line_n true (pre ++ m :: post) n false out =
        ⟨true, out ++ selected regex_search pattern invert_match line_n (n + 1) pre,
          n + pre.length + 1, post⟩ := by
  induction pre with
  | nil => intro n out; simp [scan_lines, hm, selected]
  | cons line rest ih =>
    intro n out
    have hl : regex_search line pattern = false := hpre line (List.mem_cons_self _ _)
    have hrest : ∀ l ∈ rest, regex_search l pattern = false :=
      fun l h => hpre l (List.mem_cons_of_mem _ h)
    rw [selected_cons, List.cons_append]
    unfold scan_lines
    simp only [hl, Bool.and_false, Bool.false_eq_true, if_false]
    rw [ih hrest, ← hl, emit_eq, List.append_assoc]
    simp [Nat.add_assoc, Nat.add_comm 1]

/-- With `-L` on, a stream without a matching line is read to its end. -/
theorem scan_lines_no_match (invert_match line_n : Bool) (lines : List String)
    (h : ∀ l ∈ lines, regex_search l pattern = false) :
    ∀ (n : Nat) (out : List Emitted),
      scan_lines regex_search pattern invert_match line_n true lines n false out =
        ⟨false, out ++ selected regex_search pattern invert_match line_n (n + 1) lines,
          n + lines.length, []⟩ := by
  induction lines with
  | nil => intro n out; simp [scan_lines, selected]
  | cons line rest ih =>
    intro n out
    have hl : regex_search line pattern = false := h line (List.mem_cons_self _ _)
    have hrest : ∀ l ∈ rest, regex_search l pattern = false :=
      fun l h' => h l (List.mem_cons_of_mem _ h')
    rw [selected_cons]
    unfold scan_lines
    simp only [hl, Bool.and_false, Bool.false_eq_true, if_false]
    rw [ih hrest, ← hl, emit_eq, List.append_assoc]
    simp [Nat.add_assoc, Nat.add_comm 1]

/-- Membership in the selected lines, by position. -/
theorem mem_selected_line_number (invert_match line_n : Bool) (lines : List String) (i : Nat) :
    i ∈ (selected regex_search pattern invert_match line_n 1 lines).map Emitted.line_number ↔
      ∃ l, 1 ≤ i ∧ lines[i - 1]? = some l ∧ (regex_search l pattern != invert_match) = true := by
  unfold selected rendered
  simp only [List.mem_map, List.mem_filter]
  constructor
  · rintro ⟨e, ⟨⟨j, l⟩, ⟨hmem, hsel⟩, rfl⟩, rfl⟩
    rw [List.mk_mem_enumFrom_iff_le_and_getElem?_sub] at hmem
    exact ⟨l, hmem.1, hmem.2, hsel⟩
  · rintro ⟨l, hi, hl, hsel⟩
    refine ⟨_, ⟨(i, l), ⟨?_, hsel⟩, rfl⟩, rfl⟩
    rw [List.mk_mem_enumFrom_iff_le_and_getElem?_sub]
    exact ⟨hi, hl⟩

end Scanner

/-! ## The claims on `search_in_file` -/

/-- C1: without `-L`, for an openable file with lines `L1..Ln`, every pattern and
every setting of `invert_match` and `line_n`, the output of `search_in_file` is,
in file order, one line for each `Li` such that "`Li` matches" differs from
`invert_match`; the line is `Li` prefixed by `Line i: ` (`i` the 1-based position)
when `line_n` is set and `Li` itself otherwise. -/
theorem search_in_file_output (regex_search : String → String → Bool)
    (lines : List String) (pattern : String) (invert_match line_n : Bool) :
    (search_in_file regex_search (some lines) pattern invert_match line_n false).out =
      ((lines.enumFrom 1).filter
          (fun il => regex_search il.2 pattern != invert_match)).map
        (fun il => ⟨il.1, (if line_n then "Line " ++ toString il.1 ++ ": " else "") ++ il.2⟩) := by
  unfold search_in_file
  rw [scan_lines_out]
  rfl

/-- C2: `search_in_file` returns true exactly when the file could be opened and
one of its lines matches the pattern; a file that cannot be opened yields false
and no output; the returned value does not depend on `invert_match`. -/
theorem search_in_file_returns (regex_search : String → String → Bool)
    (file : Option (List String)) (pattern : String)
    (invert_match line_n files_without_match : Bool) :
    ((search_in_file regex_search file pattern invert_match line_n files_without_match).ret
        = true ↔
      ∃ lines, file = some lines ∧ ∃ l ∈ lines, regex_search l pattern = true) ∧
    (file = none →
      (search_in_file regex_search file pattern invert_match line_n files_without_match).ret
        = false ∧
      (search_in_file regex_search file pattern invert_match line_n files_without_match).out
        = []) ∧
    (search_in_file regex_search file pattern invert_match line_n files_without_match).ret =
      (search_in_file regex_search file pattern (!invert_match) line_n files_without_match).ret := by
  cases file with
  | none => simp [search_in_file]
  | some lines => simp [search_in_file, scan_lines_ret]

/-- C4: invert-match duality. Without `-L` and with `line_n` fixed, a position
`i` is reported with `invert_match` off or with `invert_match` on exactly when
`1 ≤ i ≤ n`, `n` the number of lines of the file, and never with both. -/
theorem invert_match_duality (regex_search : String → String → Bool)
    (file : Option (List String)) (pattern : String) (line_n : Bool) (i : Nat) :
    ((i ∈ (search_in_file regex_search file pattern false line_n false).out.map
          Emitted.line_number ∨
        i ∈ (search_in_file regex_search file pattern true line_n false).out.map
          Emitted.line_number) ↔
      1 ≤ i ∧ i ≤ (lines_of file).length) ∧
    ¬ (i ∈ (search_in_file regex_search file pattern false line_n false).out.map
          Emitted.line_number ∧
        i ∈ (search_in_file regex_search file pattern true line_n false).out.map
          Emitted.line_number) := by
  cases file with
  | none =>
    simp only [search_in_file, lines_of]
    simp
    omega
  | some lines =>
    simp only [search_in_file, lines_of, scan_lines_out, List.nil_append, Nat.zero_add,
      mem_selected_line_number]
    constructor
    · constructor
      · rintro (⟨l, hi, hl, -⟩ | ⟨l, hi, hl, -⟩) <;>
        · have := (List.getElem?_eq_some.mp hl).1
          omega
      · rintro ⟨hi, hn⟩
        have hlt : i - 1 < lines.length := by omega
        cases hm : regex_search lines[i - 1] pattern
        · exact Or.inr ⟨_, hi, List.getElem?_eq_getElem hlt, by simp [hm]⟩
        · exact Or.inl ⟨_, hi, List.getElem?_eq_getElem hlt, by simp [hm]⟩
    · rintro ⟨⟨l, -, hl, h1⟩, ⟨l2, -, hl2, h2⟩⟩
      rw [hl] at hl2
      cases hl2
      cases hm : regex_search l pattern <;> simp [hm] at h1 h2

/-- C5: files-without-match short-circuit. With `-L` on, when the first matching
line is line `k` (the lines `pre` before it do not match, `m` does),
`search_in_file` returns true with `line_number = k`: exactly `k` lines were
read, the lines `post` after line `k` are still unread in the stream, and the
output is the one of a scan of `pre` alone, so every written line has a number
below `k`. For `pre = []` exactly one line is read. -/
theorem files_without_match_short_circuit (regex_search : String → String → Bool)
    (pre post : List String) (m pattern : String) (invert_match line_n : Bool)
    (hpre : ∀ l ∈ pre, regex_search l pattern = false)
    (hm : regex_search m pattern = true) :
    (search_in_file regex_search (some (pre ++ m :: post)) pattern invert_match line_n
        true).ret = true ∧
    (search_in_file regex_search (some (pre ++ m :: post)) pattern invert_match line_n
        true).line_number = pre.length + 1 ∧
    (search_in_file regex_search (some (pre ++ m :: post)) pattern invert_match line_n
        true).unread = post ∧
    (search_in_file regex_search (some (pre ++ m :: post)) pattern invert_match line_n
        true).out =
      (search_in_file regex_search (some pre) pattern invert_match line_n true).out ∧
    ∀ e ∈ (search_in_file regex_search (some (pre ++ m :: post)) pattern invert_match line_n
        true).out, e.line_number < pre.length + 1 := by
  have h1 := scan_lines_stop regex_search pattern invert_match line_n pre post m hpre hm 0 []
  have h2 := scan_lines_no_match regex_search pattern invert_match line_n pre hpre 0 []
  simp only [search_in_file]
  rw [h1, h2]
  refine ⟨rfl, by simp, rfl, rfl, ?_⟩
  intro e he
  have hmem : e.line_number ∈
      (selected regex_search pattern invert_match line_n 1 pre).map Emitted.line_number :=
    List.mem_map.mpr ⟨e, by simpa using he, rfl⟩
  rw [mem_selected_line_number] at hmem
  obtain ⟨l, hi, hl, -⟩ := hmem
  have := (List.getElem?_eq_some.mp hl).1
  omega

/-- Witness of C5: the stream `bar`, `foo`, `baz` with a matcher that accepts
exactly the line equal to the pattern `foo`; the scan stops after two lines. -/
theorem files_without_match_short_circuit_witness :
    (∀ l ∈ ["bar"], (fun l p : String => l == p) l "foo" = false) ∧
    (fun l p : String => l == p) "foo" "foo" = true ∧
    ((search_in_file (fun l p => l == p) (some (["bar"] ++ "foo" :: ["baz"])) "foo" true true
        true).ret = true ∧
    (search_in_file (fun l p => l == p) (some (["bar"] ++ "foo" :: ["baz"])) "foo" true true
        true).line_number = ["bar"].length + 1 ∧
    (search_in_file (fun l p => l == p) (some (["bar"] ++ "foo" :: ["baz"])) "foo" true true
        true).unread = ["baz"] ∧
    (search_in_file (fun l p => l == p) (some (["bar"] ++ "foo" :: ["baz"])) "foo" true true
        true).out =
      (search_in_file (fun l p => l == p) (some ["bar"]) "foo" true true true).out ∧
    ∀ e ∈ (search_in_file (fun l p => l == p) (some (["bar"] ++ "foo" :: ["baz"])) "foo" true
        true true).out, e.line_number < ["bar"].length + 1) :=
  ⟨by decide, by decide,
    files_without_match_short_circuit (fun l p => l == p) ["bar"] ["baz"] "foo" "foo" true true
      (by decide) (by decide)⟩

/-! ## The claims on one file entry and on `main` -/

/-- With `-L` on and `-v` off the loop writes nothing: it returns before the
write at the first matching line, and the lines before it are not selected. -/
theorem scan_lines_silent (regex_search : String → String → Bool) (pattern : String)
    (line_n : Bool) (lines : List String) :
    ∀ (n : Nat),
      (scan_lines regex_search pattern false line_n true lines n false []).out = [] := by
  induction lines with
  | nil => intro n; simp [scan_lines]
  | cons line rest ih =>
    intro n
    unfold scan_lines
    cases hm : regex_search line pattern
    · simp [emit, ih]
    · simp

/-- The loop over the target names reaches the scan exactly when the base name
is one of them; the name written by line 142 is then the base name. -/
theorem search_names_silent (regex_search : String → String → Bool) (c : Config) (e : Entry)
    (hL : c.files_without_match = true) (hv : c.invert_match = false)
    (names : List String) :
    search_names regex_search c e names =
      if e.filename ∈ names then
        if (lines_of e.content).any (fun l => regex_search l c.pattern) then []
        else [plain_report e.filename]
      else [] := by
  induction names with
  | nil => simp [search_names]
  | cons name rest ih =>
    unfold search_names
    by_cases hname : e.filename = name
    · subst hname
      have hout : (search_in_file regex_search e.content c.pattern false c.line_number
          true).out = [] := by
        cases e.content with
        | none => rfl
        | some lines => exact scan_lines_silent regex_search c.pattern c.line_number lines 0
      have hret : (search_in_file regex_search e.content c.pattern false c.line_number
          true).ret = (lines_of e.content).any (fun l => regex_search l c.pattern) := by
        cases e.content with
        | none => rfl
        | some lines => simp [search_in_file, scan_lines_ret, lines_of]
      simp only [hL, hv, hout, hret, if_true, List.mem_cons, true_or]
      cases (lines_of e.content).any (fun l => regex_search l c.pattern) <;> simp
    · simp only [hname, if_false, ih, List.mem_cons, false_or]

/-- C3: in content-search mode with `-L` on and `-v` off, the step of a thread
at an entry that is not a directory writes, as the whole output for that entry,
one line naming the file when the base name is a target file name and no line of
the file matches, and nothing when some line matches or when the base name is
not a target file name. -/
theorem files_without_match_report (regex_search : String → String → Bool) (c : Config)
    (fs : FileSystem) (s : State) (i : Nat) (depth : Int) (e : Entry) (es : List Entry)
    (hw : s.workers.get? i = some (Worker.listing depth (e :: es)))
    (hfile : e.is_directory = false)
    (hf : c.search_for_files = false) (hL : c.files_without_match = true)
    (hv : c.invert_match = false) :
    (step regex_search c fs s i).trace = s.trace ++
      (if e.filename ∈ c.file_names then
        if (lines_of e.content).any (fun l => regex_search l c.pattern) then []
        else [Event.print (depth + 1) ("\x1b[1;31m" ++ e.filename ++ "\x1b[0m")]
      else []) := by
  unfold step
  simp only [hw, hfile, Bool.false_eq_true, if_false, file_output, hf,
    search_names_silent regex_search c e hL hv, prints]
  split_ifs <;> simp [plain_report]

/-- Witness of C3: a thread at the file `/a/x.txt` with the lines `bar`, `baz`,
the target name `x.txt` and the pattern `foo`. -/
theorem files_without_match_report_witness :
    (State.mk ["/"] []
        [Worker.listing 0 [⟨"/a/x.txt", "x.txt", false, none, some ["bar", "baz"]⟩]]
        [Event.push "/" 0]).workers.get? 0 =
      some (Worker.listing 0 [⟨"/a/x.txt", "x.txt", false, none, some ["bar", "baz"]⟩]) ∧
    (Entry.mk "/a/x.txt" "x.txt" false none (some ["bar", "baz"])).is_directory = false ∧
    (Config.mk false ["x.txt"] "foo" false false true 4).search_for_files = false ∧
    (Config.mk false ["x.txt"] "foo" false false true 4).files_without_match = true ∧
    (Config.mk false ["x.txt"] "foo" false false true 4).invert_match = false ∧
    (step (fun l p => l == p) ⟨false, ["x.txt"], "foo", false, false, true, 4⟩ (fun _ => none)
        ⟨["/"], [], [Worker.listing 0 [⟨"/a/x.txt", "x.txt", false, none, some ["bar", "baz"]⟩]],
          [Event.push "/" 0]⟩ 0).trace =
      [Event.push "/" 0] ++
      (if "x.txt" ∈ ["x.txt"] then
        if (lines_of (some ["bar", "baz"])).any (fun l => (fun l p => l == p) l "foo") then []
        else [Event.print (0 + 1) ("\x1b[1;31m" ++ "x.txt" ++ "\x1b[0m")]
      else []) :=
  ⟨rfl, rfl, rfl, rfl, rfl,
    files_without_match_report (fun l p => l == p)
      ⟨false, ["x.txt"], "foo", false, false, true, 4⟩ (fun _ => none)
      ⟨["/"], [], [Worker.listing 0 [⟨"/a/x.txt", "x.txt", false, none, some ["bar", "baz"]⟩]],
        [Event.push "/" 0]⟩ 0 0 ⟨"/a/x.txt", "x.txt", false, none, some ["bar", "baz"]⟩ []
      rfl rfl rfl rfl rfl⟩

/-- One turn of the argument loop succeeds on a valid argument and sets each of
the four flags exactly when the argument is that flag. -/
theorem parse_arg_flags (stoi : String → Option Int) (o : Options) (arg : String)
    (hd : arg.take 3 = "-d=" → (stoi (arg.drop 3)).isSome = true)
    (hth : arg.take 4 = "-th=" → (stoi (arg.drop 4)).isSome = true) :
    ∃ o2, parse_arg stoi o arg = some o2 ∧
      o2.invert_match = (o.invert_match || decide (arg = "-v")) ∧
      o2.line_number = (o.line_number || decide (arg = "-n")) ∧
      o2.files_without_match = (o.files_without_match || decide (arg = "-L")) ∧
      o2.search_for_files = (o.search_for_files || decide (arg = "-f")) := by
  unfold parse_arg
  by_cases h1 : arg = "-v"
  · subst h1; exact ⟨_, rfl, by simp, by simp, by simp, by simp⟩
  by_cases h2 : arg = "-n"
  · subst h2; exact ⟨_, rfl, by simp, by simp, by simp, by simp⟩
  by_cases h3 : arg = "-L"
  · subst h3; exact ⟨_, rfl, by simp, by simp, by simp, by simp⟩
  by_cases h4 : arg = "-f"
  · subst h4; exact ⟨_, rfl, by simp, by simp, by simp, by simp⟩
  simp only [h1, h2, h3, h4, if_false, decide_False, Bool.or_false]
  by_cases h5 : arg.take 3 = "-d="
  · obtain ⟨d, hd2⟩ := Option.isSome_iff_exists.mp (hd h5)
    simp [h5, hd2]
  by_cases h6 : arg.take 4 = "-th="
  · obtain ⟨n, hn⟩ := Option.isSome_iff_exists.mp (hth h6)
    simp [h5, h6, hn]
  simp only [h5, h6, if_false]
  split_ifs <;> exact ⟨_, rfl, rfl, rfl, rfl, rfl⟩

/-- The argument loop succeeds on valid arguments and sets each of the four
flags exactly when it occurs among the arguments. -/
theorem parse_args_flags (stoi : String → Option Int) (args : List String)
    (hvalid : ∀ a ∈ args, (a.take 3 = "-d=" → (stoi (a.drop 3)).isSome = true) ∧
      (a.take 4 = "-th=" → (stoi (a.drop 4)).isSome = true)) :
    ∀ o : Options, ∃ o2, parse_args stoi args o = some o2 ∧
      o2.invert_match = (o.invert_match || decide ("-v" ∈ args)) ∧
      o2.line_number = (o.line_number || decide ("-n" ∈ args)) ∧
      o2.files_without_match = (o.files_without_match || decide ("-L" ∈ args)) ∧
      o2.search_for_files = (o.search_for_files || decide ("-f" ∈ args)) := by
  induction args with
  | nil => intro o; exact ⟨o, rfl, by simp, by simp, by simp, by simp⟩
  | cons arg rest ih =>
    intro o
    obtain ⟨o1, h1, hv, hn, hL, hf⟩ := parse_arg_flags stoi o arg
      (hvalid arg (List.mem_cons_self _ _)).1 (hvalid arg (List.mem_cons_self _ _)).2
    obtain ⟨o2, h2, hv2, hn2, hL2, hf2⟩ :=
      ih (fun a ha => hvalid a (List.mem_cons_of_mem _ ha)) o1
    refine ⟨o2, by simp [parse_args, h1, h2], ?_, ?_, ?_, ?_⟩
    · rw [hv2, hv]; simp [Bool.or_assoc, eq_comm]
    · rw [hn2, hn]; simp [Bool.or_assoc, eq_comm]
    · rw [hL2, hL]; simp [Bool.or_assoc, eq_comm]
    · rw [hf2, hf]; simp [Bool.or_assoc, eq_comm]

/-- Counterexample to C6 as stated: for the arguments `-th=-1 foo`, with a
`std::stoi` that reads `-1`, every `-th=` value is a valid integer and no two
flags conflict, yet the traversal is not started: after the seed the thread
vector constructor throws and `main` ends with no thread created. -/
theorem negative_thread_count_aborts :
    (∀ a ∈ ["-th=-1", "foo"],
      (a.take 3 = "-d=" →
        ((fun s : String => if s = "-1" then some (-1 : Int) else none) (a.drop 3)).isSome
          = true) ∧
      (a.take 4 = "-th=" →
        ((fun s : String => if s = "-1" then some (-1 : Int) else none) (a.drop 4)).isSome
          = true)) ∧
    ¬ (("-f" ∈ ["-th=-1", "foo"] ∧
        ("-v" ∈ ["-th=-1", "foo"] ∨ "-n" ∈ ["-th=-1", "foo"] ∨ "-L" ∈ ["-th=-1", "foo"])) ∨
      ("-L" ∈ ["-th=-1", "foo"] ∧
        ("-v" ∈ ["-th=-1", "foo"] ∨ "-n" ∈ ["-th=-1", "foo"] ∨ "-f" ∈ ["-th=-1", "foo"]))) ∧
    main (fun s => if s = "-1" then some (-1) else none) 8 ["-th=-1", "foo"] =
      MainResult.length_error
        { max_depth := 4, num_threads := -1, pattern := "foo", file_names := [],
          invert_match := false, line_number := false, files_without_match := false,
          search_for_files := false }
        { visited := [root], directories := [(root, 0)], workers := [],
          trace := [Event.push root 0] } ∧
    ∀ o s, main (fun s => if s = "-1" then some (-1) else none) 8 ["-th=-1", "foo"] ≠
      MainResult.traversal o s := by
  refine ⟨by decide, by decide, by decide, ?_⟩
  intro o s h
  have hm : main (fun s => if s = "-1" then some (-1) else none) 8 ["-th=-1", "foo"] =
      MainResult.length_error
        { max_depth := 4, num_threads := -1, pattern := "foo", file_names := [],
          invert_match := false, line_number := false, files_without_match := false,
          search_for_files := false }
        { visited := [root], directories := [(root, 0)], workers := [],
          trace := [Event.push root 0] } := by decide
  rw [hm] at h
  cases h

/-- C6, amended: when every `-d=` and `-th=` value is accepted by `std::stoi`,
`main` returns 1 with nothing pushed and no thread created exactly when the
arguments hold `-f` together with one of `-v`, `-n`, `-L`, or `-L` together with
one of `-v`, `-n`, `-f`; otherwise it seeds the frontier with `(root, 0)` and,
when the thread count is not negative, starts that many threads on the parsed
options; with a negative thread count the thread vector constructor throws
after the seed and no thread is created. -/
theorem main_option_check (stoi : String → Option Int) (hardware_concurrency : Nat)
    (args : List String)
    (hvalid : ∀ a ∈ args, (a.take 3 = "-d=" → (stoi (a.drop 3)).isSome = true) ∧
      (a.take 4 = "-th=" → (stoi (a.drop 4)).isSome = true)) :
    (main stoi hardware_concurrency args = MainResult.exit_1 ↔
      ("-f" ∈ args ∧ ("-v" ∈ args ∨ "-n" ∈ args ∨ "-L" ∈ args)) ∨
      ("-L" ∈ args ∧ ("-v" ∈ args ∨ "-n" ∈ args ∨ "-f" ∈ args))) ∧
    (¬ (("-f" ∈ args ∧ ("-v" ∈ args ∨ "-n" ∈ args ∨ "-L" ∈ args)) ∨
        ("-L" ∈ args ∧ ("-v" ∈ args ∨ "-n" ∈ args ∨ "-f" ∈ args))) →
      ∃ o, parse_args stoi args (defaults hardware_concurrency) = some o ∧
        (0 ≤ o.num_threads →
          main stoi hardware_concurrency args =
            MainResult.traversal o
              ⟨[root], [(root, 0)], List.replicate o.num_threads.toNat Worker.idle,
                [Event.push root 0]⟩) ∧
        (o.num_threads < 0 →
          main stoi hardware_concurrency args =
            MainResult.length_error o ⟨[root], [(root, 0)], [], [Event.push root 0]⟩)) := by
  obtain ⟨o, ho, hv, hn, hL, hf⟩ :=
    parse_args_flags stoi args hvalid (defaults hardware_concurrency)
  simp only [defaults, Bool.false_or] at hv hn hL hf
  unfold main
  simp only [ho, hv, hn, hL, hf, seeded]
  by_cases hneg : o.num_threads < 0
  · have hnot : ¬ 0 ≤ o.num_threads := not_le.mpr hneg
    by_cases h1 : "-f" ∈ args <;> by_cases h2 : "-v" ∈ args <;>
      by_cases h3 : "-n" ∈ args <;> by_cases h4 : "-L" ∈ args <;>
      simp [h1, h2, h3, h4, hneg, hnot]
  · have hpos : 0 ≤ o.num_threads := not_lt.mp hneg
    by_cases h1 : "-f" ∈ args <;> by_cases h2 : "-v" ∈ args <;>
      by_cases h3 : "-n" ∈ args <;> by_cases h4 : "-L" ∈ args <;>
      simp [h1, h2, h3, h4, hneg, hpos]

/-- Witness of C6: the arguments `-f -v -d=2 foo`, with a `std::stoi` that reads
the digit 2; `main` returns 1. -/
theorem main_option_check_witness :
    (∀ a ∈ ["-f", "-v", "-d=2", "foo"],
      (a.take 3 = "-d=" →
        ((fun s : String => if s = "2" then some (2 : Int) else none) (a.drop 3)).isSome = true) ∧
      (a.take 4 = "-th=" →
        ((fun s : String => if s = "2" then some (2 : Int) else none) (a.drop 4)).isSome
          = true)) ∧
    ((main (fun s => if s = "2" then some 2 else none) 8 ["-f", "-v", "-d=2", "foo"] =
        MainResult.exit_1 ↔
      ("-f" ∈ ["-f", "-v", "-d=2", "foo"] ∧
        ("-v" ∈ ["-f", "-v", "-d=2", "foo"] ∨ "-n" ∈ ["-f", "-v", "-d=2", "foo"] ∨
          "-L" ∈ ["-f", "-v", "-d=2", "foo"])) ∨
      ("-L" ∈ ["-f", "-v", "-d=2", "foo"] ∧
        ("-v" ∈ ["-f", "-v", "-d=2", "foo"] ∨ "-n" ∈ ["-f", "-v", "-d=2", "foo"] ∨
          "-f" ∈ ["-f", "-v", "-d=2", "foo"]))) ∧
    (¬ (("-f" ∈ ["-f", "-v", "-d=2", "foo"] ∧
        ("-v" ∈ ["-f", "-v", "-d=2", "foo"] ∨ "-n" ∈ ["-f", "-v", "-d=2", "foo"] ∨
          "-L" ∈ ["-f", "-v", "-d=2", "foo"])) ∨
      ("-L" ∈ ["-f", "-v", "-d=2", "foo"] ∧
        ("-v" ∈ ["-f", "-v", "-d=2", "foo"] ∨ "-n" ∈ ["-f", "-v", "-d=2", "foo"] ∨
          "-f" ∈ ["-f", "-v", "-d=2", "foo"]))) →
      ∃ o, parse_args (fun s => if s = "2" then some 2 else none) ["-f", "-v", "-d=2", "foo"]
          (defaults 8) = some o ∧
        (0 ≤ o.num_threads →
          main (fun s => if s = "2" then some 2 else none) 8 ["-f", "-v", "-d=2", "foo"] =
            MainResult.traversal o
              ⟨[root], [(root, 0)], List.replicate o.num_threads.toNat Worker.idle,
                [Event.push root 0]⟩) ∧
        (o.num_threads < 0 →
          main (fun s => if s = "2" then some 2 else none) 8 ["-f", "-v", "-d=2", "foo"] =
            MainResult.length_error o ⟨[root], [(root, 0)], [], [Event.push root 0]⟩))) :=
  ⟨by decide,
    main_option_check (fun s => if s = "2" then some 2 else none) 8
      ["-f", "-v", "-d=2", "foo"] (by decide)⟩

/-! ## The worker loop: case analysis of a step -/

section Traversal

variable (regex_search : String → String → Bool) (c : Config) (fs : FileSystem)

/-- To prove a property of the state after a step it is enough to prove it in
each of the cases of `step`. -/
theorem step_cases (s : State) (i : Nat) (P : State → Prop)
    (stutter : (s.workers.get? i = none ∨ s.workers.get? i = some Worker.returned) → P s)
    (empty : s.workers.get? i = some Worker.idle → s.directories = [] →
      P { s with workers := s.workers.set i Worker.returned })
    (deep : ∀ path depth rest, s.workers.get? i = some Worker.idle →
      s.directories = (path, depth) :: rest → depth ≥ c.max_depth →
      P { s with directories := rest
                 workers := s.workers.set i Worker.returned
                 trace := s.trace ++ [Event.pop path depth] })
    (unreadable : ∀ path depth rest, s.workers.get? i = some Worker.idle →
      s.directories = (path, depth) :: rest → depth < c.max_depth → fs path = none →
      P { s with directories := rest
                 trace := s.trace ++ [Event.pop path depth] })
    (opened : ∀ path depth rest entries, s.workers.get? i = some Worker.idle →
      s.directories = (path, depth) :: rest → depth < c.max_depth →
      fs path = some entries →
      P { s with directories := rest
                 workers := s.workers.set i (Worker.listing depth entries)
                 trace := s.trace ++ [Event.pop path depth, Event.expand path depth] })
    (finished : ∀ depth, s.workers.get? i = some (Worker.listing depth []) →
      P { s with workers := s.workers.set i Worker.idle })
    (broken : ∀ depth entry entries,
      s.workers.get? i = some (Worker.listing depth (entry :: entries)) →
      entry.is_directory = true → entry.canonical = none →
      P { s with workers := s.workers.set i Worker.idle })
    (seen : ∀ depth entry entries abs_path,
      s.workers.get? i = some (Worker.listing depth (entry :: entries)) →
      entry.is_directory = true → entry.canonical = some abs_path → abs_path ∈ s.visited →
      P { s with workers := s.workers.set i (Worker.listing depth entries)
                 trace := s.trace ++ prints depth (dir_output regex_search c entry) })
    (absent : ∀ depth entry entries abs_path,
      s.workers.get? i = some (Worker.listing depth (entry :: entries)) →
      entry.is_directory = true → entry.canonical = some abs_path → abs_path ∉ s.visited →
      P { s with workers := s.workers.set i
                   (Worker.inserting depth abs_path entry entries) })
    (inserted : ∀ depth abs_path entry entries,
      s.workers.get? i = some (Worker.inserting depth abs_path entry entries) →
      P { s with visited := abs_path :: s.visited
                 workers := s.workers.set i (Worker.pushing depth abs_path entry entries) })
    (file : ∀ depth entry entries,
      s.workers.get? i = some (Worker.listing depth (entry :: entries)) →
      entry.is_directory = false →
      P { s with workers := s.workers.set i (Worker.listing depth entries)
                 trace := s.trace ++ prints depth (file_output regex_search c entry) })
    (pushed : ∀ depth abs_path entry entries,
      s.workers.get? i = some (Worker.pushing depth abs_path entry entries) →
      P { s with directories := s.directories ++ [(abs_path, depth + 1)]
                 workers := s.workers.set i (Worker.listing depth entries)
                 trace := s.trace ++ Event.push abs_path (depth + 1) ::
                   prints depth (dir_output regex_search c entry) }) :
    P (step regex_search c fs s i) := by
  unfold step
  split
  · next hw => exact stutter (Or.inl hw)
  · next hw => exact stutter (Or.inr hw)
  · next hw =>
    split
    · next hd => exact empty hw hd
    · next path depth rest hd =>
      split
      · next h => exact deep path depth rest hw hd h
      · next h =>
        split
        · next hfs => exact unreadable path depth rest hw hd (not_le.mp h) hfs
        · next entries hfs => exact opened path depth rest entries hw hd (not_le.mp h) hfs
  · next depth hw => exact finished depth hw
  · next depth entry entries hw =>
    split
    · next hdir =>
      split
      · next hc => exact broken depth entry entries hw hdir hc
      · next abs_path hc =>
        split
        · next hv => exact seen depth entry entries abs_path hw hdir hc hv
        · next hv => exact absent depth entry entries abs_path hw hdir hc hv
    · next hdir => exact file depth entry entries hw (by simpa using hdir)
  · next depth abs_path entry entries hw => exact inserted depth abs_path entry entries hw
  · next depth abs_path entry entries hw => exact pushed depth abs_path entry entries hw

/-- An invariant of `step` that holds in a state holds after every schedule. -/
theorem run_invariant (P : State → Prop)
    (hstep : ∀ s i, P s → P (step regex_search c fs s i)) (schedule : List Nat) :
    ∀ s, P s → P (run regex_search c fs s schedule) := by
  induction schedule with
  | nil => intro s h; exact h
  | cons i rest ih => intro s h; exact ih _ (hstep s i h)

/-! ### Depth boundedness -/

/-- Every step keeps the invariant of depth boundedness. -/
theorem depth_invariant (s : State) (i : Nat) (h : DepthInv c s) :
    DepthInv c (step regex_search c fs s i) := by
  obtain ⟨hw, t, ht, hb⟩ := h
  have hset : ∀ (w2 : Worker), (∀ d, w2.expanding = some d → d < c.max_depth) →
      ∀ w ∈ s.workers.set i w2, ∀ d, w.expanding = some d → d < c.max_depth := by
    intro w2 h2 w hmem
    rcases List.mem_or_eq_of_mem_set hmem with h | h
    · exact hw w h
    · subst h; exact h2
  have hprints : ∀ (d : Int) (lines : List String), d < c.max_depth →
      ∀ ev ∈ prints d lines, ev.bounded c := by
    intro d lines hd ev hev
    simp only [prints, List.mem_map] at hev
    obtain ⟨l, -, rfl⟩ := hev
    simp only [Event.bounded]
    omega
  apply step_cases regex_search c fs s i (DepthInv c)
  · intro _; exact ⟨hw, t, ht, hb⟩
  · intro _ _
    exact ⟨hset _ (by simp [Worker.expanding]), t, ht, hb⟩
  · intro path depth rest _ _ _
    refine ⟨hset _ (by simp [Worker.expanding]), t ++ [Event.pop path depth], by simp [ht], ?_⟩
    intro ev hev
    rcases List.mem_append.mp hev with h | h
    · exact hb ev h
    · simp only [List.mem_singleton] at h; subst h; trivial
  · intro path depth rest _ _ _ _
    refine ⟨hw, t ++ [Event.pop path depth], by simp [ht], ?_⟩
    intro ev hev
    rcases List.mem_append.mp hev with h | h
    · exact hb ev h
    · simp only [List.mem_singleton] at h; subst h; trivial
  · intro path depth rest entries _ _ hd _
    refine ⟨hset _ (by simp only [Worker.expanding]; intro d h; cases h; exact hd),
      t ++ [Event.pop path depth, Event.expand path depth], by simp [ht], ?_⟩
    intro ev hev
    rcases List.mem_append.mp hev with h | h
    · exact hb ev h
    · simp only [List.mem_cons, List.mem_singleton, List.not_mem_nil, or_false] at h
      rcases h with h | h
      · subst h; trivial
      · subst h; exact hd
  · intro depth _
    exact ⟨hset _ (by simp [Worker.expanding]), t, ht, hb⟩
  · intro depth entry entries _ _ _
    exact ⟨hset _ (by simp [Worker.expanding]), t, ht, hb⟩
  · intro depth entry entries abs_path hwi _ _ _
    have hd : depth < c.max_depth := hw _ (List.get?_mem hwi) depth rfl
    refine ⟨hset _ (by simp only [Worker.expanding]; intro d h; cases h; exact hd),
      t ++ prints depth (dir_output regex_search c entry), by simp [ht], ?_⟩
    intro ev hev
    rcases List.mem_append.mp hev with h | h
    · exact hb ev h
    · exact hprints depth _ hd ev h
  · intro depth entry entries abs_path hwi _ _ _
    have hd : depth < c.max_depth := hw _ (List.get?_mem hwi) depth rfl
    exact ⟨hset _ (by simp only [Worker.expanding]; intro d h; cases h; exact hd), t, ht, hb⟩
  · intro depth abs_path entry entries hwi
    have hd : depth < c.max_depth := hw _ (List.get?_mem hwi) depth rfl
    exact ⟨hset _ (by simp only [Worker.expanding]; intro d h; cases h; exact hd), t, ht, hb⟩
  · intro depth entry entries hwi _
    have hd : depth < c.max_depth := hw _ (List.get?_mem hwi) depth rfl
    refine ⟨hset _ (by simp only [Worker.expanding]; intro d h; cases h; exact hd),
      t ++ prints depth (file_output regex_search c entry), by simp [ht], ?_⟩
    intro ev hev
    rcases List.mem_append.mp hev with h | h
    · exact hb ev h
    · exact hprints depth _ hd ev h
  · intro depth abs_path entry entries hwi
    have hd : depth < c.max_depth := hw _ (List.get?_mem hwi) depth rfl
    refine ⟨hset _ (by simp only [Worker.expanding]; intro d h; cases h; exact hd),
      t ++ Event.push abs_path (depth + 1) :: prints depth (dir_output regex_search c entry),
      by simp [ht], ?_⟩
    intro ev hev
    rcases List.mem_append.mp hev with h | h
    · exact hb ev h
    · rcases List.mem_cons.mp h with h | h
      · subst h; simp only [Event.bounded]; omega
      · exact hprints depth _ hd ev h

/-! ### Observations on traces -/

theorem pushes_append (t1 t2 : List Event) : pushes (t1 ++ t2) = pushes t1 ++ pushes t2 := by
  induction t1 with
  | nil => rfl
  | cons ev t ih => cases ev <;> simp [pushes, ih]

theorem pops_append (t1 t2 : List Event) : pops (t1 ++ t2) = pops t1 ++ pops t2 := by
  induction t1 with
  | nil => rfl
  | cons ev t ih => cases ev <;> simp [pops, ih]

theorem expands_append (t1 t2 : List Event) :
    expands (t1 ++ t2) = expands t1 ++ expands t2 := by
  induction t1 with
  | nil => rfl
  | cons ev t ih => cases ev <;> simp [expands, ih]

theorem pushes_prints (d : Int) (lines : List String) : pushes (prints d lines) = [] := by
  induction lines with
  | nil => rfl
  | cons l t ih => simpa [prints, pushes] using ih

theorem pops_prints (d : Int) (lines : List String) : pops (prints d lines) = [] := by
  induction lines with
  | nil => rfl
  | cons l t ih => simpa [prints, pops] using ih

theorem expands_prints (d : Int) (lines : List String) : expands (prints d lines) = [] := by
  induction lines with
  | nil => rfl
  | cons l t ih => simpa [prints, expands] using ih

theorem single_get (w wi : Worker) (i : Nat) (h : [w].get? i = some wi) :
    i = 0 ∧ wi = w := by
  cases i with
  | zero => simp at h; exact ⟨rfl, h.symm⟩
  | succ j => simp at h

/-! ### One thread: no canonical path is pushed twice -/

/-- Every step of a run with one thread keeps the invariant of single
insertion. -/
theorem unique_invariant (s : State) (i : Nat) (h : UniqueInv s) :
    UniqueInv (step regex_search c fs s i) := by
  obtain ⟨w, hws, hcount, habsent⟩ := h
  have hidx : ∀ wi, s.workers.get? i = some wi → i = 0 ∧ wi = w := by
    intro wi hwi
    rw [hws] at hwi
    exact single_get w wi i hwi
  have hset : ∀ wi w2, s.workers.get? i = some wi → s.workers.set i w2 = [w2] := by
    intro wi w2 hwi
    rw [(hidx wi hwi).1, hws]
    rfl
  have hsame : ∀ (wi w2 : Worker) (t : List Event), s.workers.get? i = some wi →
      wi.pending = [] → w2.pending = [] → pushes t = [] →
      (∀ d p e es, w2 = Worker.inserting d p e es → p ∉ s.visited) →
      UniqueInv { s with workers := s.workers.set i w2, trace := s.trace ++ t } := by
    intro wi w2 t hwi h1 h2 ht hins
    refine ⟨w2, hset wi w2 hwi, ?_, hins⟩
    intro p
    have hp := hcount p
    rw [← (hidx wi hwi).2, h1] at hp
    simp only [pushes_append, ht, List.append_nil, h2]
    exact hp
  apply step_cases regex_search c fs s i UniqueInv
  · intro _; exact ⟨w, hws, hcount, habsent⟩
  · intro hwi _
    simpa using hsame _ Worker.returned [] hwi rfl rfl rfl (by simp)
  · intro path depth rest hwi _ _
    obtain ⟨w2, h1, h2, h3⟩ :=
      hsame _ Worker.returned [Event.pop path depth] hwi rfl rfl rfl (by simp)
    exact ⟨w2, h1, h2, h3⟩
  · intro path depth rest hwi _ _ _
    have hw : w = Worker.idle := ((hidx _ hwi).2).symm
    refine ⟨w, hws, ?_, habsent⟩
    intro p
    have hp := hcount p
    simpa [pushes_append, pushes] using hp
  · intro path depth rest entries hwi _ _ _
    obtain ⟨w2, h1, h2, h3⟩ := hsame _ (Worker.listing depth entries)
      [Event.pop path depth, Event.expand path depth] hwi rfl rfl rfl (by simp)
    exact ⟨w2, h1, h2, h3⟩
  · intro depth hwi
    simpa using hsame _ Worker.idle [] hwi rfl rfl rfl (by simp)
  · intro depth entry entries hwi _ _
    simpa using hsame _ Worker.idle [] hwi rfl rfl rfl (by simp)
  · intro depth entry entries abs_path hwi _ _ _
    exact hsame _ (Worker.listing depth entries) _ hwi rfl rfl (pushes_prints _ _) (by simp)
  · intro depth entry entries abs_path hwi _ _ hv
    have := hsame _ (Worker.inserting depth abs_path entry entries) [] hwi rfl rfl rfl
      (by
        intro d p e es heq
        cases heq
        exact hv)
    simpa using this
  · intro depth abs_path entry entries hwi
    have hw := (hidx _ hwi).2
    have hv : abs_path ∉ s.visited := habsent depth abs_path entry entries hw.symm
    refine ⟨_, hset _ _ hwi, ?_, by simp⟩
    intro p
    have hp := hcount p
    rw [← hw] at hp
    simp only [Worker.pending, List.count_nil, Nat.add_zero] at hp
    simp only [Worker.pending, List.mem_cons]
    by_cases hpa : p = abs_path
    · subst hpa
      simp only [hv, if_false, Nat.le_zero] at hp
      simp [hp]
    · have hne : ¬ abs_path = p := fun h => hpa h.symm
      simp only [hpa, false_or]
      simp only [List.count_cons, List.count_nil, beq_iff_eq, hne, if_false, Nat.add_zero]
      exact hp
  · intro depth entry entries hwi _
    exact hsame _ (Worker.listing depth entries) _ hwi rfl rfl (pushes_prints _ _) (by simp)
  · intro depth abs_path entry entries hwi
    have hw := (hidx _ hwi).2
    refine ⟨_, hset _ _ hwi, ?_, by simp⟩
    intro p
    have hp := hcount p
    rw [← hw] at hp
    simp only [Worker.pending] at hp
    simp only [pushes_append, pushes, pushes_prints, List.map_append, List.map_cons,
      List.map_nil, List.count_append, Worker.pending, List.count_nil]
    omega

/-- The seeded state of one thread satisfies the invariant of single
insertion. -/
theorem unique_seeded : UniqueInv (seeded 1) := by
  refine ⟨Worker.idle, rfl, ?_, by simp⟩
  intro p
  simp only [seeded, pushes, Worker.pending, List.map_cons, List.map_nil,
    List.count_nil, Nat.add_zero, List.mem_singleton]
  by_cases hp : p = root
  · subst hp; simp
  · have hne : ¬ root = p := fun h => hp h.symm
    simp [hp, hne]

/-! ### The queue and the trace -/

/-- Every step keeps the invariant of the queue when no directory fails to
open. -/
theorem queue_invariant (hfs : ∀ p, (fs p).isSome = true) (s : State) (i : Nat)
    (h : QueueInv c s) : QueueInv c (step regex_search c fs s i) := by
  obtain ⟨h1, h2⟩ := h
  apply step_cases regex_search c fs s i (QueueInv c)
  · intro _; exact ⟨h1, h2⟩
  · intro _ _; exact ⟨h1, h2⟩
  · intro path depth rest _ hd hdeep
    have hnot : ¬ depth < c.max_depth := not_lt.mpr hdeep
    simp only [QueueInv, pushes_append, pops_append, expands_append, pushes, pops, expands,
      List.append_nil, List.filter_append, List.filter_cons, List.filter_nil, hnot,
      decide_False, Bool.false_eq_true, if_false]
    rw [h1, hd, h2]
    simp
  · intro path depth rest _ _ _ hnone
    have := hfs path
    rw [hnone] at this
    simp at this
  · intro path depth rest entries _ hd hlt _
    simp only [QueueInv, pushes_append, pops_append, expands_append, pushes, pops, expands,
      List.append_nil, List.filter_append, List.filter_cons, List.filter_nil, hlt,
      decide_True, if_true]
    rw [h1, hd, h2]
    simp
  · intro _ _; exact ⟨h1, h2⟩
  · intro _ _ _ _ _ _; exact ⟨h1, h2⟩
  · intro depth entry entries abs_path _ _ _ _
    simp only [QueueInv, pushes_append, pops_append, expands_append, pushes_prints,
      pops_prints, expands_prints, List.append_nil]
    exact ⟨h1, h2⟩
  · intro _ _ _ _ _ _ _ _; exact ⟨h1, h2⟩
  · intro _ _ _ _ _; exact ⟨h1, h2⟩
  · intro depth entry entries _ _
    simp only [QueueInv, pushes_append, pops_append, expands_append, pushes_prints,
      pops_prints, expands_prints, List.append_nil]
    exact ⟨h1, h2⟩
  · intro depth abs_path entry entries _
    simp only [QueueInv, pushes_append, pops_append, expands_append, pushes, pops, expands,
      pushes_prints, pops_prints, expands_prints, List.append_nil]
    rw [h1]
    simp [h2]

/-! ### One thread: breadth-first order -/

/-- Every step of a run with one thread keeps the breadth-first invariant. -/
theorem bfs_invariant (s : State) (i : Nat) (h : BfsInv c s) :
    BfsInv c (step regex_search c fs s i) := by
  obtain ⟨w, hws, hsort, hspread, hexp, hret⟩ := h
  have hidx : ∀ wi, s.workers.get? i = some wi → i = 0 ∧ wi = w := by
    intro wi hwi
    rw [hws] at hwi
    exact single_get w wi i hwi
  have hset : ∀ wi w2, s.workers.get? i = some wi → s.workers.set i w2 = [w2] := by
    intro wi w2 hwi
    rw [(hidx wi hwi).1, hws]
    rfl
  apply step_cases regex_search c fs s i (BfsInv c)
  · intro _; exact ⟨w, hws, hsort, hspread, hexp, hret⟩
  · intro hwi hd
    refine ⟨Worker.returned, hset _ _ hwi, hsort, hspread, by simp [Worker.expanding], ?_⟩
    intro _ x hx
    simp only [hd, List.not_mem_nil] at hx
  · intro path depth rest hwi hd hdeep
    rw [hd, List.pairwise_cons] at hsort
    refine ⟨Worker.returned, hset _ _ hwi, hsort.2, ?_, by simp [Worker.expanding], ?_⟩
    · intro x hx y hy
      exact hspread x (hd ▸ List.mem_cons_of_mem _ hx) y (hd ▸ List.mem_cons_of_mem _ hy)
    · intro _ x hx
      have := hsort.1 x hx
      simp only at this
      omega
  · intro path depth rest hwi hd _ _
    have hw : w = Worker.idle := ((hidx _ hwi).2).symm
    rw [hd, List.pairwise_cons] at hsort
    refine ⟨w, hws, hsort.2, ?_, ?_, ?_⟩
    · intro x hx y hy
      exact hspread x (hd ▸ List.mem_cons_of_mem _ hx) y (hd ▸ List.mem_cons_of_mem _ hy)
    · intro d hdw; rw [hw] at hdw; simp [Worker.expanding] at hdw
    · intro hr; rw [hw] at hr; cases hr
  · intro path depth rest entries hwi hd _ _
    rw [hd, List.pairwise_cons] at hsort
    refine ⟨Worker.listing depth entries, hset _ _ hwi, hsort.2, ?_, ?_, by simp⟩
    · intro x hx y hy
      exact hspread x (hd ▸ List.mem_cons_of_mem _ hx) y (hd ▸ List.mem_cons_of_mem _ hy)
    · intro d hdw x hx
      simp only [Worker.expanding, Option.some.injEq] at hdw
      subst hdw
      have h1 := hsort.1 x hx
      have h2 := hspread (path, depth) (hd ▸ List.mem_cons_self _ _) x
        (hd ▸ List.mem_cons_of_mem _ hx)
      simp only at h1 h2
      exact ⟨h1, h2⟩
  · intro depth hwi
    exact ⟨Worker.idle, hset _ _ hwi, hsort, hspread, by simp [Worker.expanding], by simp⟩
  · intro depth entry entries hwi _ _
    exact ⟨Worker.idle, hset _ _ hwi, hsort, hspread, by simp [Worker.expanding], by simp⟩
  · intro depth entry entries abs_path hwi _ _ _
    have hw := (hidx _ hwi).2
    refine ⟨Worker.listing depth entries, hset _ _ hwi, hsort, hspread, ?_, by simp⟩
    intro d hdw
    exact hexp d (by rw [← hw]; exact hdw)
  · intro depth entry entries abs_path hwi _ _ _
    have hw := (hidx _ hwi).2
    refine ⟨Worker.inserting depth abs_path entry entries, hset _ _ hwi, hsort, hspread, ?_,
      by simp⟩
    intro d hdw
    exact hexp d (by rw [← hw]; exact hdw)
  · intro depth abs_path entry entries hwi
    have hw := (hidx _ hwi).2
    refine ⟨Worker.pushing depth abs_path entry entries, hset _ _ hwi, hsort, hspread, ?_,
      by simp⟩
    intro d hdw
    exact hexp d (by rw [← hw]; exact hdw)
  · intro depth entry entries hwi _
    have hw := (hidx _ hwi).2
    refine ⟨Worker.listing depth entries, hset _ _ hwi, hsort, hspread, ?_, by simp⟩
    intro d hdw
    exact hexp d (by rw [← hw]; exact hdw)
  · intro depth abs_path entry entries hwi
    have hw := (hidx _ hwi).2
    have hold := hexp depth (by rw [← hw]; rfl)
    refine ⟨Worker.listing depth entries, hset _ _ hwi, ?_, ?_, ?_, by simp⟩
    · rw [List.pairwise_append]
      refine ⟨hsort, List.pairwise_singleton _ _, ?_⟩
      intro a ha b hb
      simp only [List.mem_singleton] at hb
      subst hb
      exact (hold a ha).2
    · intro x hx y hy
      rcases List.mem_append.mp hx with hx | hx <;> rcases List.mem_append.mp hy with hy | hy
      · exact hspread x hx y hy
      · simp only [List.mem_singleton] at hy
        subst hy
        have := (hold x hx).1
        simp only
        omega
      · simp only [List.mem_singleton] at hx
        subst hx
        have := (hold y hy).2
        simp only
        omega
      · simp only [List.mem_singleton] at hx hy
        subst hx hy
        simp
    · intro d hdw x hx
      simp only [Worker.expanding, Option.some.injEq] at hdw
      subst hdw
      rcases List.mem_append.mp hx with hx | hx
      · exact hold x hx
      · simp only [List.mem_singleton] at hx
        subst hx
        simp

/-! ### One thread: termination -/

/-- A step of the only thread, when it has not returned, decreases the measure
and leaves one thread. -/
theorem step_bound_decreases (s : State) (w : Worker) (hws : s.workers = [w])
    (hw : w ≠ Worker.returned) :
    step_bound c fs (step regex_search c fs s 0) < step_bound c fs s ∧
      ∃ w2, (step regex_search c fs s 0).workers = [w2] := by
  have hget : ∀ wi, s.workers.get? 0 = some wi → w = wi := by
    intro wi h
    rw [hws] at h
    simpa using h
  have hset : ∀ w2, s.workers.set 0 w2 = [w2] := by
    intro w2
    rw [hws]
    rfl
  apply step_cases regex_search c fs s 0
    (fun s2 => step_bound c fs s2 < step_bound c fs s ∧ ∃ w2, s2.workers = [w2])
  · intro h
    rcases h with h | h
    · rw [hws] at h; simp at h
    · exact absurd (hget _ h) hw
  · intro hwi hd
    have := hget _ hwi
    subst this
    exact ⟨by simp [step_bound, hws, hd, worker_weight], _, hset _⟩
  · intro path depth rest hwi hd hdeep
    have := hget _ hwi
    subst this
    refine ⟨?_, _, hset _⟩
    simp only [step_bound, hws, hd, List.set_cons_zero, List.map_cons, List.sum_cons,
      List.map_nil, List.sum_nil, worker_weight]
    have hb : (c.max_depth - depth).toNat = 0 := by omega
    simp only [hb, item_weight]
    omega
  · intro path depth rest hwi hd hlt hnone
    have := hget _ hwi
    subst this
    have hb : (c.max_depth - depth).toNat = (c.max_depth - (depth + 1)).toNat + 1 := by omega
    refine ⟨?_, _, hws⟩
    simp only [step_bound, hws, hd, List.map_cons, List.sum_cons, hb, item_weight, hnone]
    omega
  · intro path depth rest entries hwi hd hlt hsome
    have := hget _ hwi
    subst this
    have hb : (c.max_depth - depth).toNat = (c.max_depth - (depth + 1)).toNat + 1 := by omega
    refine ⟨?_, _, hset _⟩
    simp only [step_bound, hws, hd, List.map_cons, List.sum_cons, hb, item_weight, hsome,
      List.set_cons_zero, worker_weight, listing_weight, List.map_nil, List.sum_nil]
    omega
  · intro depth hwi
    have := hget _ hwi
    subst this
    exact ⟨by simp [step_bound, hws, worker_weight, listing_weight], _, hset _⟩
  · intro depth entry entries hwi hdir hcanon
    have := hget _ hwi
    subst this
    refine ⟨?_, _, hset _⟩
    simp only [step_bound, hws, List.set_cons_zero, List.map_cons, List.sum_cons, List.map_nil,
      List.sum_nil, worker_weight, listing_weight, entry_weight, hdir, hcanon, if_true]
    omega
  · intro depth entry entries abs_path hwi hdir hcanon _
    have := hget _ hwi
    subst this
    refine ⟨?_, _, hset _⟩
    simp only [step_bound, hws, List.set_cons_zero, List.map_cons, List.sum_cons, List.map_nil,
      List.sum_nil, worker_weight, listing_weight, entry_weight, hdir, hcanon, if_true]
    omega
  · intro depth entry entries abs_path hwi hdir hcanon _
    have := hget _ hwi
    subst this
    refine ⟨?_, _, hset _⟩
    simp only [step_bound, hws, List.set_cons_zero, List.map_cons, List.sum_cons, List.map_nil,
      List.sum_nil, worker_weight, listing_weight, entry_weight, hdir, hcanon, if_true]
    omega
  · intro depth abs_path entry entries hwi
    have := hget _ hwi
    subst this
    refine ⟨?_, _, hset _⟩
    simp only [step_bound, hws, List.set_cons_zero, List.map_cons, List.sum_cons, List.map_nil,
      List.sum_nil, worker_weight]
    omega
  · intro depth entry entries hwi hdir
    have := hget _ hwi
    subst this
    refine ⟨?_, _, hset _⟩
    simp only [step_bound, hws, List.set_cons_zero, List.map_cons, List.sum_cons, List.map_nil,
      List.sum_nil, worker_weight, listing_weight, entry_weight, hdir, Bool.false_eq_true,
      if_false]
    omega
  · intro depth abs_path entry entries hwi
    have := hget _ hwi
    subst this
    refine ⟨?_, _, hset _⟩
    simp only [step_bound, hws, List.set_cons_zero, List.map_cons, List.sum_cons, List.map_nil,
      List.sum_nil, worker_weight, List.map_append, List.sum_append]
    have hb : (c.max_depth - (depth + 1)).toNat = (c.max_depth - (depth + 1)).toNat := rfl
    omega

/-- A thread that has returned stays so, and the other indices of a run with
one thread do nothing. -/
theorem step_idle_index (s : State) (w : Worker) (i : Nat) (hws : s.workers = [w])
    (h : w = Worker.returned ∨ i ≠ 0) : step regex_search c fs s i = s := by
  unfold step
  rw [hws]
  cases i with
  | zero =>
    rcases h with h | h
    · subst h; rfl
    · exact absurd rfl h
  | succ j => rfl

/-- With one thread, once the thread has taken as many steps as the measure of
the state, it has returned. -/
theorem run_returns (schedule : List Nat) :
    ∀ (s : State) (w : Worker), s.workers = [w] → step_bound c fs s ≤ schedule.count 0 →
      (run regex_search c fs s schedule).workers = [Worker.returned] := by
  induction schedule with
  | nil =>
    intro s w hws hm
    simp only [List.count_nil, Nat.le_zero] at hm
    simp only [run, hws]
    cases w <;>
      simp [step_bound, hws, worker_weight, listing_weight] at hm ⊢
  | cons i rest ih =>
    intro s w hws hm
    simp only [run]
    by_cases hidle : w = Worker.returned ∨ i ≠ 0
    · rw [step_idle_index regex_search c fs s w i hws hidle]
      rcases hidle with h | h
      · subst h
        have hstay := run_invariant regex_search c fs
          (fun s2 => s2.workers = [Worker.returned])
          (fun s2 j h2 => by
            rw [step_idle_index regex_search c fs s2 Worker.returned j h2 (Or.inl rfl)]
            exact h2) rest s hws
        exact hstay
      · apply ih s w hws
        have : List.count 0 (i :: rest) = List.count 0 rest := by
          simp [List.count_cons, h]
        omega
    · have hw : w ≠ Worker.returned := fun h => hidle (Or.inl h)
      have hi : i = 0 := by
        by_contra h
        exact hidle (Or.inr h)
      subst hi
      obtain ⟨hlt, w2, hw2⟩ := step_bound_decreases regex_search c fs s w hws hw
      apply ih _ w2 hw2
      simp only [List.count_cons_self] at hm
      omega

/-- With one thread the run always ends: a schedule that gives the thread at
least as many steps as the measure of the seeded state leaves it returned. -/
theorem single_worker_returns (schedule : List Nat)
    (h : step_bound c fs (seeded 1) ≤ schedule.count 0) :
    (execute regex_search c fs 1 schedule).workers = [Worker.returned] :=
  run_returns regex_search c fs schedule (seeded 1) Worker.idle rfl h

end Traversal

/-- C7: depth boundedness. In every run, for every number of threads and every
schedule: a thread inside a listing lists a directory whose work item has depth
below `max_depth`; and in the trace after the seed of `main`, every directory
opened has depth below `max_depth`, every line is written for an entry of depth
at most `max_depth` (the depth of the listed work item plus 1) and every work
item pushed by a thread has depth at most `max_depth`. -/
theorem depth_bounded (regex_search : String → String → Bool) (c : Config) (fs : FileSystem)
    (num_threads : Nat) (schedule : List Nat) :
    (∀ d es, Worker.listing d es ∈ (execute regex_search c fs num_threads schedule).workers →
      d < c.max_depth) ∧
    (∀ d p e es,
      Worker.inserting d p e es ∈ (execute regex_search c fs num_threads schedule).workers →
      d < c.max_depth) ∧
    (∀ d p e es,
      Worker.pushing d p e es ∈ (execute regex_search c fs num_threads schedule).workers →
      d < c.max_depth) ∧
    ∃ t, (execute regex_search c fs num_threads schedule).trace = Event.push root 0 :: t ∧
      (∀ p d, Event.expand p d ∈ t → d < c.max_depth) ∧
      (∀ d line, Event.print d line ∈ t → d ≤ c.max_depth) ∧
      (∀ p d, Event.push p d ∈ t → d ≤ c.max_depth) := by
  have h := run_invariant regex_search c fs (DepthInv c)
    (fun s i hs => depth_invariant regex_search c fs s i hs) schedule (seeded num_threads)
    ⟨by
      intro w hw d hd
      simp only [seeded, List.mem_replicate] at hw
      rw [hw.2] at hd
      simp [Worker.expanding] at hd,
     [], rfl, by simp⟩
  obtain ⟨hw, t, ht, hb⟩ := h
  exact ⟨fun d es hmem => hw _ hmem d rfl, fun d p e es hmem => hw _ hmem d rfl,
    fun d p e es hmem => hw _ hmem d rfl, t, ht,
    fun p d hm => hb _ hm, fun d l hm => hb _ hm, fun p d hm => hb _ hm⟩

/-- C8, the code at the failing input: on `twice_fs` with `max_depth = 2` and two
threads under `twice_schedule`, both threads are inside `visited.insert` for
`/T/t1` at the same time (each has looked it up and found it absent), both get
`inserted == true`, and when every thread has returned the work item
`(/T/t1, 2)` has been pushed twice. -/
theorem canonical_path_pushed_twice (regex_search : String → String → Bool) :
    (∃ e0 es0 e1 es1,
      (execute regex_search (content_search 2) twice_fs 2 (twice_schedule.take 12)).workers =
        [Worker.inserting 1 "/T/t1" e0 es0, Worker.inserting 1 "/T/t1" e1 es1]) ∧
    (execute regex_search (content_search 2) twice_fs 2 twice_schedule).terminated = true ∧
    pushes (execute regex_search (content_search 2) twice_fs 2 twice_schedule).trace =
      [("/", 0), ("/A", 1), ("/B", 1), ("/T/t1", 2), ("/T/t1", 2)] ∧
    List.count "/T/t1"
      ((pushes (execute regex_search (content_search 2) twice_fs 2
        twice_schedule).trace).map Prod.fst) = 2 := by
  have h1 : execute regex_search (content_search 2) twice_fs 2 (twice_schedule.take 12) =
      execute (fun _ _ => false) (content_search 2) twice_fs 2 (twice_schedule.take 12) := by
    simp [execute, run, twice_schedule, step, seeded, twice_fs, content_search, subdir, root,
      prints, dir_output]
  have h2 : execute regex_search (content_search 2) twice_fs 2 twice_schedule =
      execute (fun _ _ => false) (content_search 2) twice_fs 2 twice_schedule := by
    simp [execute, run, twice_schedule, step, seeded, twice_fs, content_search, subdir, root,
      prints, dir_output]
  rw [h1, h2]
  exact ⟨⟨subdir "/A/l1" "l1" "/T/t1", [], subdir "/B/l1" "l1" "/T/t1", [], by decide⟩,
    by decide, by decide, by decide⟩

/-- C9: the termination race. On `race_fs` with `max_depth = 2` and three
threads, under `race_schedule`: after the first step thread 0 is inside the
listing of the root and the queue is empty; thread 1 then finds the queue empty
and returns; when every thread has returned, the work item `(/y, 1)`, pushed
after that moment and of depth below `max_depth`, is still in the queue: it was
never popped and `/y` was never opened. -/
theorem termination_race (regex_search : String → String → Bool) :
    ∃ (fs : FileSystem) (c : Config) (num_threads : Nat) (schedule : List Nat)
      (k a b : Nat) (p : String) (d : Int),
      1 < num_threads ∧ a ≠ b ∧
      (execute regex_search c fs num_threads (schedule.take k)).workers.get? a =
        some Worker.idle ∧
      (execute regex_search c fs num_threads (schedule.take k)).directories = [] ∧
      (∃ depth entries,
        (execute regex_search c fs num_threads (schedule.take k)).workers.get? b =
          some (Worker.listing depth entries)) ∧
      schedule.get? k = some a ∧
      (execute regex_search c fs num_threads (schedule.take (k + 1))).workers.get? a =
        some Worker.returned ∧
      (execute regex_search c fs num_threads schedule).terminated = true ∧
      (p, d) ∈ (execute regex_search c fs num_threads schedule).directories ∧
      d < c.max_depth ∧
      (p, d) ∉ pushes (execute regex_search c fs num_threads (schedule.take (k + 1))).trace ∧
      (p, d) ∈ pushes (execute regex_search c fs num_threads schedule).trace ∧
      p ∉ (pops (execute regex_search c fs num_threads schedule).trace).map Prod.fst ∧
      p ∉ (expands (execute regex_search c fs num_threads schedule).trace).map Prod.fst := by
  have h1 : execute regex_search (content_search 2) race_fs 3 (race_schedule.take 1) =
      execute (fun _ _ => false) (content_search 2) race_fs 3 (race_schedule.take 1) := by
    simp [execute, run, race_schedule, step, seeded, race_fs, content_search, subdir, root,
      prints, dir_output]
  have h2 : execute regex_search (content_search 2) race_fs 3 (race_schedule.take (1 + 1)) =
      execute (fun _ _ => false) (content_search 2) race_fs 3 (race_schedule.take (1 + 1)) := by
    simp [execute, run, race_schedule, step, seeded, race_fs, content_search, subdir, root,
      prints, dir_output]
  have h3 : execute regex_search (content_search 2) race_fs 3 race_schedule =
      execute (fun _ _ => false) (content_search 2) race_fs 3 race_schedule := by
    simp [execute, run, race_schedule, step, seeded, race_fs, content_search, subdir, root,
      prints, dir_output]
  refine ⟨race_fs, content_search 2, 3, race_schedule, 1, 1, 0, "/y", 1, ?_⟩
  rw [h1, h2, h3]
  refine ⟨by decide, by decide, by decide, by decide,
    ⟨0, [subdir "/x" "x" "/x", subdir "/y" "y" "/y"], by decide⟩, by decide, by decide,
    by decide, by decide, by decide, by decide, by decide, by decide, by decide⟩

/-- C10: with one thread and no directory failing to open, at every moment the
depths of the work items in the queue do not decrease from front to back; once
the thread has returned every work item left in the queue has depth at least
`max_depth`; and then every work item that was pushed with depth below
`max_depth` had its directory opened exactly once. (That the thread returns after
boundedly many of its steps is `single_worker_returns`.) -/
theorem single_worker_complete (regex_search : String → String → Bool) (c : Config)
    (fs : FileSystem) (schedule : List Nat) (hfs : ∀ p, (fs p).isSome = true) :
    List.Pairwise (fun a b : String × Int => a.2 ≤ b.2)
      (execute regex_search c fs 1 schedule).directories ∧
    ((execute regex_search c fs 1 schedule).workers = [Worker.returned] →
      ∀ x ∈ (execute regex_search c fs 1 schedule).directories, c.max_depth ≤ x.2) ∧
    ((execute regex_search c fs 1 schedule).workers = [Worker.returned] →
      ∀ p d, (p, d) ∈ pushes (execute regex_search c fs 1 schedule).trace →
        d < c.max_depth →
        List.count p ((expands (execute regex_search c fs 1 schedule).trace).map Prod.fst)
          = 1) := by
  have hb := run_invariant regex_search c fs (BfsInv c)
    (fun s i hs => bfs_invariant regex_search c fs s i hs) schedule (seeded 1)
    ⟨Worker.idle, rfl, by simp [seeded], by simp [seeded], by simp [Worker.expanding],
      by simp⟩
  have hq := run_invariant regex_search c fs (QueueInv c)
    (fun s i hs => queue_invariant regex_search c fs hfs s i hs) schedule (seeded 1)
    ⟨by simp [seeded, pushes, pops], by simp [seeded, expands, pops]⟩
  have hu := run_invariant regex_search c fs UniqueInv
    (fun s i hs => unique_invariant regex_search c fs s i hs) schedule (seeded 1)
    unique_seeded
  obtain ⟨wu, -, hcount, -⟩ := hu
  obtain ⟨w, hws, hsort, -, -, hret⟩ := hb
  obtain ⟨hq1, hq2⟩ := hq
  unfold execute
  refine ⟨hsort, ?_, ?_⟩
  · intro hr
    rw [hws] at hr
    exact hret (by simpa using hr)
  · intro hr p d hpush hd
    rw [hws] at hr
    have hdeep := hret (by simpa using hr)
    rw [hq1] at hpush
    have hpop : (p, d) ∈ pops (run regex_search c fs (seeded 1) schedule).trace := by
      rcases List.mem_append.mp hpush with h | h
      · exact h
      · have := hdeep (p, d) h
        simp only at this
        omega
    have hmem : p ∈ (expands (run regex_search c fs (seeded 1) schedule).trace).map
        Prod.fst := by
      rw [hq2]
      exact List.mem_map.mpr ⟨(p, d), List.mem_filter.mpr ⟨hpop, by simpa using hd⟩, rfl⟩
    have hge := List.one_le_count_iff.mpr hmem
    have hsub : ((expands (run regex_search c fs (seeded 1) schedule).trace).map
        Prod.fst).Sublist
        ((pushes (run regex_search c fs (seeded 1) schedule).trace).map Prod.fst) := by
      rw [hq2, hq1]
      exact ((List.filter_sublist _).trans (List.sublist_append_left _ _)).map _
    have hle := hsub.count_le p
    have hone := hcount p
    have hif : (if p ∈ (run regex_search c fs (seeded 1) schedule).visited then 1 else 0)
        ≤ 1 := by split <;> omega
    omega

/-- Witness of C10: one thread on `shortcut_fs` with `max_depth = 2`, run for
twenty steps; the thread has returned, having popped `/a/d/c` of depth 2. -/
theorem single_worker_complete_witness :
    (∀ p, (shortcut_fs p).isSome = true) ∧
    (execute (fun l p => l == p) (content_search 2) shortcut_fs 1
      (List.replicate 20 0)).workers = [Worker.returned] ∧
    (List.Pairwise (fun a b : String × Int => a.2 ≤ b.2)
      (execute (fun l p => l == p) (content_search 2) shortcut_fs 1
        (List.replicate 20 0)).directories ∧
    ((execute (fun l p => l == p) (content_search 2) shortcut_fs 1
        (List.replicate 20 0)).workers = [Worker.returned] →
      ∀ x ∈ (execute (fun l p => l == p) (content_search 2) shortcut_fs 1
        (List.replicate 20 0)).directories, (content_search 2).max_depth ≤ x.2) ∧
    ((execute (fun l p => l == p) (content_search 2) shortcut_fs 1
        (List.replicate 20 0)).workers = [Worker.returned] →
      ∀ p d, (p, d) ∈ pushes (execute (fun l p => l == p) (content_search 2) shortcut_fs 1
        (List.replicate 20 0)).trace →
        d < (content_search 2).max_depth →
        List.count p ((expands (execute (fun l p => l == p) (content_search 2) shortcut_fs 1
          (List.replicate 20 0)).trace).map Prod.fst) = 1)) :=
  ⟨fun p => by unfold shortcut_fs; split_ifs <;> rfl, by decide,
    single_worker_complete (fun l p => l == p) (content_search 2) shortcut_fs
      (List.replicate 20 0) (fun p => by unfold shortcut_fs; split_ifs <;> rfl)⟩

end Grep
